import Mathlib

/-!
Verification of the PCF (Portable Compiled Font) decoder of the
bitmap-fonts repository.

The development shallowly embeds the decoder found in
`pcf-parser/src/lib.rs` (the crate root, the live implementation) and,
where a claim refers to it, the older unused variant in
`pcf-parser/src/pcf.rs`.  A byte buffer is a `List Nat` whose elements
are the bytes of the file; fallible operations (slice indexing, failed
`assert!`/`expect`/`unwrap`, unimplemented branches) are modelled with
`Except PcfError`.  Machine integers are modelled as `Nat`/`Int` with
explicit reductions modulo powers of two where the Rust code wraps.

Error taxonomy (names follow the specification, section 7; the Rust
code signals these conditions by panicking with a message):
* `outOfBounds`          – slice or buffer access outside the input;
* `missingTable`         – a required sub-table or map key is absent;
* `unsupportedEndianness`– `assert!(format & PCF_BYTE_MASK != 0)`;
* `unsupportedFormat`    – the format-word assertions of the encoding
                           and bitmap decoders;
* `conversionFailed`     – a failed integer narrowing (`try_into`);
* `unimplementedMetrics` – `panic!("uncompressed metrics unimplemented")`;
* `invalidHeader`        – reserved by the specification for a bad magic
                           value (never produced by the code, see C6).
-/

namespace BitmapFonts

/-- Decode failure kinds, following the error taxonomy of the spec. -/
inductive PcfError where
  | invalidHeader
  | missingTable
  | unsupportedEndianness
  | unsupportedFormat
  | conversionFailed
  | unimplementedMetrics
  | outOfBounds
deriving DecidableEq

/-- Read one byte of the buffer; indexing outside the buffer is the
Rust slice-index panic. -/
def byteAt (buf : List Nat) (i : Nat) : Except PcfError Nat :=
  match buf[i]? with
  | some b => .ok b
  | none => .error .outOfBounds

/-- Two bytes, big endian, as an unsigned 16-bit value
(`BigEndian::read_u16`). -/
def readU16BE (buf : List Nat) (i : Nat) : Except PcfError Nat := do
  let b0 ← byteAt buf i
  let b1 ← byteAt buf (i + 1)
  pure (256 * b0 + b1)

/-- Four bytes, big endian, as an unsigned 32-bit value
(`BigEndian::read_u32`). -/
def readU32BE (buf : List Nat) (i : Nat) : Except PcfError Nat := do
  let b0 ← byteAt buf i
  let b1 ← byteAt buf (i + 1)
  let b2 ← byteAt buf (i + 2)
  let b3 ← byteAt buf (i + 3)
  pure (16777216 * b0 + 65536 * b1 + 256 * b2 + b3)

/-- Four bytes, little endian, as an unsigned 32-bit value. -/
def readU32LE (buf : List Nat) (i : Nat) : Except PcfError Nat := do
  let b0 ← byteAt buf i
  let b1 ← byteAt buf (i + 1)
  let b2 ← byteAt buf (i + 2)
  let b3 ← byteAt buf (i + 3)
  pure (16777216 * b3 + 65536 * b2 + 256 * b1 + b0)

/-- Reinterpret an unsigned `w`-bit value as a two's-complement signed
value. -/
def toSigned (w : Nat) (n : Nat) : Int :=
  if n < 2 ^ (w - 1) then (n : Int) else (n : Int) - 2 ^ w

/-- Two bytes, big endian, as a signed 16-bit value
(`BigEndian::read_i16`). -/
def readI16BE (buf : List Nat) (i : Nat) : Except PcfError Int :=
  (readU16BE buf i).map (toSigned 16)

/-- Four bytes, big endian, as a signed 32-bit value
(`BigEndian::read_i32`). -/
def readI32BE (buf : List Nat) (i : Nat) : Except PcfError Int :=
  (readU32BE buf i).map (toSigned 32)

/-- Four bytes, little endian, as a signed 32-bit value
(`LittleEndian::read_i32`). -/
def readI32LE (buf : List Nat) (i : Nat) : Except PcfError Int :=
  (readU32LE buf i).map (toSigned 32)

/-- Fallible narrowing of a signed value into `usize`
(`try_into().unwrap()` / `.expect(..)`: panics when negative). -/
def usizeOfInt (n : Int) : Except PcfError Nat :=
  if n < 0 then .error .conversionFailed else .ok n.toNat

/-- Wrapping `as usize` cast of a (possibly negative) signed value:
two's-complement reinterpretation modulo `2 ^ 64`. -/
def usizeCast (n : Int) : Nat :=
  (n % (2 : Int) ^ 64).toNat

/-- Wrapping 32-bit signed arithmetic (release-mode `i32` overflow). -/
def wrap32 (n : Int) : Int :=
  (n + 2 ^ 31) % 2 ^ 32 - 2 ^ 31

/-! ## Table-type bit flags (`type` field of a table-directory record) -/

def PCF_PROPERTIES : Nat := 1
def PCF_ACCELERATORS : Nat := 2
def PCF_METRICS : Nat := 4
def PCF_BITMAPS : Nat := 8
def PCF_INK_METRICS : Nat := 16
def PCF_BDF_ENCODINGS : Nat := 32
def PCF_SWIDTHS : Nat := 64
def PCF_GLYPH_NAMES : Nat := 128
def PCF_BDF_ACCELERATORS : Nat := 256

/-! ## Format-field constants

The source stores each format word as `i32` but consults it only through
low-bit masks (`& 0x100`, `& 4`, `& 3`, `& 0`), on which the signed and
the raw unsigned little-endian 32-bit readings agree bit for bit; format
words are therefore embedded as the raw unsigned value (`Nat`). -/

def PCF_DEFAULT_FORMAT : Nat := 0
def PCF_INKBOUNDS : Nat := 0x200
def PCF_ACCEL_W_INKBOUNDS : Nat := 0x100
def PCF_COMPRESSED_METRICS : Nat := 0x100
def PCF_GLYPH_PAD_MASK : Nat := 3
def PCF_BYTE_MASK : Nat := 4
def PCF_BIT_MASK : Nat := 8

/-! ## Table directory (`PcfFont::read_tables`, lib.rs lines 189-218) -/

/-- One table-directory record (struct `Table`): format word (raw
32-bit little-endian value, see above), size, and offset (`usize`,
narrowed from `i32`). -/
structure Table where
  format : Nat
  size : Int
  offset : Nat
deriving DecidableEq

/-- Directory mapping from type bitmask to `Table`, as an association
list with `HashMap` insert-overwrite semantics. -/
abbrev Tables := List (Nat × Table)

/-- `HashMap::insert`: replace the binding of `k` when present, append
otherwise. -/
def upsertTable : Tables → Nat → Table → Tables
  | [], k, t => [(k, t)]
  | (j, u) :: rest, k, t =>
      if j = k then (k, t) :: rest else (j, u) :: upsertTable rest k t

/-- `HashMap::get`. -/
def lookupTable (ts : Tables) (k : Nat) : Option Table :=
  match ts with
  | [] => none
  | (j, u) :: rest => if j = k then some u else lookupTable rest k

/-- One 16-byte table-directory record, read at absolute offset
`cursor`: type (i32 LE, narrowed to `usize`), format (LE word), size
(i32 LE), offset (i32 LE, narrowed to `usize`). -/
def readTableRecord (buf : List Nat) (cursor : Nat) :
    Except PcfError (Nat × Table) := do
  let ty ← readI32LE buf cursor
  let tyN ← usizeOfInt ty
  let format ← readU32LE buf (cursor + 4)
  let size ← readI32LE buf (cursor + 8)
  let off ← readI32LE buf (cursor + 12)
  let offN ← usizeOfInt off
  pure (tyN, { format := format, size := size, offset := offN })

/-- `PcfFont::read_tables`: fold the `count` 16-byte records following
the 8-byte file header into the directory map. -/
def read_tables (buf : List Nat) (count : Nat) : Except PcfError Tables :=
  (List.range count).foldlM
    (fun ts i => do
      let (k, t) ← readTableRecord buf (8 + 16 * i)
      pure (upsertTable ts k t))
    []

/-! ## Metrics records -/

/-- Struct `UncompressedMetrics`: five signed 16-bit fields and one
unsigned 16-bit attributes field. -/
structure UncompressedMetrics where
  left_side_bearing : Int
  right_side_bearing : Int
  character_width : Int
  character_ascent : Int
  character_descent : Int
  character_attributes : Nat
deriving DecidableEq

/-- `PcfFont::read_uncompressed_metrics` (lib.rs lines 284-302): six
big-endian fields, 12 bytes total, starting at `cursor`. -/
def read_uncompressed_metrics (buf : List Nat) (cursor : Nat) :
    Except PcfError UncompressedMetrics := do
  let lsb ← readI16BE buf cursor
  let rsb ← readI16BE buf (cursor + 2)
  let cw ← readI16BE buf (cursor + 4)
  let ca ← readI16BE buf (cursor + 6)
  let cd ← readI16BE buf (cursor + 8)
  let attrs ← readU16BE buf (cursor + 10)
  pure ⟨lsb, rsb, cw, ca, cd, attrs⟩

/-- Struct `CompressedMetrics` (lib.rs lines 49-57): the decoded values
are `i16` (bias already removed). -/
structure CompressedMetrics where
  left_side_bearing : Int
  right_side_bearing : Int
  character_width : Int
  character_ascent : Int
  character_descent : Int
  character_attributes : Int
deriving DecidableEq

/-- `PcfFont::read_compressed_metrics` (lib.rs lines 304-319): five
consecutive stored bytes, each widened to `i16` and debiased by
`- 0x80`; the attributes field is 0. -/
def read_compressed_metrics (buf : List Nat) (cursor : Nat) :
    Except PcfError CompressedMetrics := do
  let b0 ← byteAt buf cursor
  let b1 ← byteAt buf (cursor + 1)
  let b2 ← byteAt buf (cursor + 2)
  let b3 ← byteAt buf (cursor + 3)
  let b4 ← byteAt buf (cursor + 4)
  pure ⟨(b0 : Int) - 0x80, (b1 : Int) - 0x80, (b2 : Int) - 0x80,
        (b3 : Int) - 0x80, (b4 : Int) - 0x80, 0⟩

/-! ## Accelerators (`PcfFont::read_accelerators`, lib.rs lines 220-282) -/

/-- Struct `Accelerators`. -/
structure Accelerators where
  no_overlap : Nat
  constant_metrics : Nat
  terminal_font : Nat
  constant_width : Nat
  ink_inside : Nat
  ink_metrics : Nat
  draw_direction : Nat
  padding : Nat
  font_ascent : Int
  font_descent : Int
  max_overlap : Int
  minbounds : UncompressedMetrics
  maxbounds : UncompressedMetrics
  ink_minbounds : UncompressedMetrics
  ink_maxbounds : UncompressedMetrics
deriving DecidableEq

/-- Body of `PcfFont::read_accelerators` at table offset `off`: format
word (must have `PCF_BYTE_MASK` set, else the `assert!` fires), eight
flag bytes, three big-endian i32 fields, min/max bounds, and - only
when `PCF_ACCEL_W_INKBOUNDS` is set in the format word - two further
12-byte ink-bound records; otherwise ink bounds alias min/max. -/
def read_accelerators_at (buf : List Nat) (off : Nat) :
    Except PcfError Accelerators := do
  let format ← readU32LE buf off
  if format &&& PCF_BYTE_MASK ≠ 0 then
    let no_overlap ← byteAt buf (off + 4)
    let constant_metrics ← byteAt buf (off + 5)
    let terminal_font ← byteAt buf (off + 6)
    let constant_width ← byteAt buf (off + 7)
    let ink_inside ← byteAt buf (off + 8)
    let ink_metrics ← byteAt buf (off + 9)
    let draw_direction ← byteAt buf (off + 10)
    let padding ← byteAt buf (off + 11)
    let font_ascent ← readI32BE buf (off + 12)
    let font_descent ← readI32BE buf (off + 16)
    let max_overlap ← readI32BE buf (off + 20)
    let minbounds ← read_uncompressed_metrics buf (off + 24)
    let maxbounds ← read_uncompressed_metrics buf (off + 36)
    if format &&& PCF_ACCEL_W_INKBOUNDS ≠ 0 then
      let ink_minbounds ← read_uncompressed_metrics buf (off + 48)
      let ink_maxbounds ← read_uncompressed_metrics buf (off + 60)
      pure ⟨no_overlap, constant_metrics, terminal_font, constant_width,
            ink_inside, ink_metrics, draw_direction, padding,
            font_ascent, font_descent, max_overlap,
            minbounds, maxbounds, ink_minbounds, ink_maxbounds⟩
    else
      pure ⟨no_overlap, constant_metrics, terminal_font, constant_width,
            ink_inside, ink_metrics, draw_direction, padding,
            font_ascent, font_descent, max_overlap,
            minbounds, maxbounds, minbounds, maxbounds⟩
  else
    .error .unsupportedEndianness

/-- `PcfFont::read_accelerators` including the table lookup: the
BDF-accelerators table, falling back to the plain accelerators table;
absent both, the `assert!(accelerators.is_some())` fires. -/
def read_accelerators (buf : List Nat) (tables : Tables) :
    Except PcfError Accelerators :=
  match (lookupTable tables PCF_BDF_ACCELERATORS).orElse
      (fun _ => lookupTable tables PCF_ACCELERATORS) with
  | some t => read_accelerators_at buf t.offset
  | none => .error .missingTable

/-! ## Encoding table (`PcfFont::read_encoding`, lib.rs lines 321-352) -/

/-- Struct `Encoding`: `usize` fields, narrowed from big-endian i16. -/
structure Encoding where
  min_byte2 : Nat
  max_byte2 : Nat
  min_byte1 : Nat
  max_byte1 : Nat
  default_char : Nat
deriving DecidableEq

/-- Body of `PcfFont::read_encoding` at table offset `off`: format word,
the assertion `format & PCF_DEFAULT_FORMAT == 0` (note that
`PCF_DEFAULT_FORMAT = 0`, so the tested conjunction is the zero mask),
then five big-endian i16 fields, each narrowed to `usize`. -/
def read_encoding_at (buf : List Nat) (off : Nat) :
    Except PcfError Encoding := do
  let format ← readU32LE buf off
  if format &&& PCF_DEFAULT_FORMAT = 0 then
    let min_byte2 ← readI16BE buf (off + 4)
    let max_byte2 ← readI16BE buf (off + 6)
    let min_byte1 ← readI16BE buf (off + 8)
    let max_byte1 ← readI16BE buf (off + 10)
    let default_char ← readI16BE buf (off + 12)
    let mn2 ← usizeOfInt min_byte2
    let mx2 ← usizeOfInt max_byte2
    let mn1 ← usizeOfInt min_byte1
    let mx1 ← usizeOfInt max_byte1
    let dc ← usizeOfInt default_char
    pure ⟨mn2, mx2, mn1, mx1, dc⟩
  else
    .error .unsupportedFormat

/-- `PcfFont::read_encoding` including the required-table lookup. -/
def read_encoding (buf : List Nat) (tables : Tables) :
    Except PcfError Encoding :=
  match lookupTable tables PCF_BDF_ENCODINGS with
  | some t => read_encoding_at buf t.offset
  | none => .error .missingTable

/-! ## Bitmap table (`PcfFont::read_bitmap`, lib.rs lines 354-386) -/

/-- Struct `Bitmap`: glyph count and the selected total bitmap size. -/
structure Bitmap where
  glyph_count : Nat
  bitmap_sizes : Nat
deriving DecidableEq

/-- Body of `PcfFont::read_bitmap` at table offset `off`: format word
and its (vacuous) zero-mask assertion, big-endian i32 glyph count, a
skip of `4 * glyph_count` bytes (wrapping `i32` product cast `as
usize`), four big-endian i32 size candidates, and the selection of the
candidate indexed by the low two bits of the format word. -/
def read_bitmap_at (buf : List Nat) (off : Nat) :
    Except PcfError Bitmap := do
  let format ← readU32LE buf off
  if format &&& PCF_DEFAULT_FORMAT = 0 then
    let glyph_count ← readI32BE buf (off + 4)
    let base := off + 8 + usizeCast (wrap32 (4 * glyph_count))
    let one ← readI32BE buf base
    let two ← readI32BE buf (base + 4)
    let three ← readI32BE buf (base + 8)
    let four ← readI32BE buf (base + 12)
    let sizes := [one, two, three, four].getD (format &&& 3) 0
    let gcN ← usizeOfInt glyph_count
    let szN ← usizeOfInt sizes
    pure ⟨gcN, szN⟩
  else
    .error .unsupportedFormat

/-- `PcfFont::read_bitmap` including the required-table lookup. -/
def read_bitmap (buf : List Nat) (tables : Tables) :
    Except PcfError Bitmap :=
  match lookupTable tables PCF_BITMAPS with
  | some t => read_bitmap_at buf t.offset
  | none => .error .missingTable

/-! ## Bounding box (`PcfFont::get_bounding_box`, lib.rs lines 388-401) -/

/-- Struct `Coord`. -/
structure Coord where
  x : Int
  y : Int
deriving DecidableEq

/-- Struct `BoundingBox`. -/
structure BoundingBox where
  size : Coord
  offset : Coord
deriving DecidableEq

/-- `PcfFont::get_bounding_box`: the font rectangle derived from the
accelerators ink bounds. -/
def get_bounding_box (acc : Accelerators) : BoundingBox :=
  { size := ⟨acc.ink_maxbounds.right_side_bearing -
              acc.ink_minbounds.left_side_bearing,
            acc.ink_maxbounds.character_ascent +
              acc.ink_maxbounds.character_descent⟩,
    offset := ⟨acc.ink_minbounds.left_side_bearing,
              -acc.ink_maxbounds.character_descent⟩ }

/-! ## Metadata (`PcfFont::load_metadata`, lib.rs lines 403-423) -/

/-- Struct `Metadata`. -/
structure Metadata where
  indices_offset : Nat
  bitmap_offset_offsets : Nat
  first_bitmap_offset : Nat
  metrics_compressed_raw : Nat
  is_metrics_compressed : Bool
  first_metric_offset : Nat
  metrics_size : Nat
deriving DecidableEq

/-- `HashMap` indexing (`self.tables[&..]`): panics when the key is
absent. -/
def requireTable (o : Option Table) : Except PcfError Table :=
  match o with
  | some t => .ok t
  | none => .error .missingTable

/-- `PcfFont::load_metadata`: derived cursors.  The `self.tables[..]`
index panics when the required table is absent. -/
def load_metadata (tables : Tables) (bitmap : Bitmap) :
    Except PcfError Metadata := do
  let encT ← requireTable (lookupTable tables PCF_BDF_ENCODINGS)
  let bmT ← requireTable (lookupTable tables PCF_BITMAPS)
  let mT ← requireTable (lookupTable tables PCF_METRICS)
  let metrics_compressed_raw := mT.format &&& PCF_COMPRESSED_METRICS
  let is_metrics_compressed := metrics_compressed_raw ≠ 0
  pure { indices_offset := encT.offset + 14,
         bitmap_offset_offsets := bmT.offset + 8,
         first_bitmap_offset := bmT.offset + 4 * (6 + bitmap.glyph_count),
         metrics_compressed_raw := metrics_compressed_raw,
         is_metrics_compressed := is_metrics_compressed,
         first_metric_offset :=
           mT.offset + (if is_metrics_compressed then 6 else 8),
         metrics_size := if is_metrics_compressed then 5 else 12 }

/-! ## Glyph-index resolution (`PcfFont::load_glyph_indices`,
lib.rs lines 438-466) -/

/-- Resolution of one code point, the body of the `filter_map` closure:
split the code point into high and low byte, reject bytes outside the
configured ranges, otherwise read the big-endian u16 glyph index at the
derived cursor, with 65535 meaning absent. -/
def resolve_glyph_index (buf : List Nat) (enc : Encoding)
    (indices_offset : Nat) (code_point : Nat) :
    Except PcfError (Option Nat) := do
  let enc1 := (code_point >>> 8) &&& 0xFF
  let enc2 := code_point &&& 0xFF
  if enc1 < enc.min_byte1 ∨ enc1 > enc.max_byte1 then
    pure none
  else if enc2 < enc.min_byte2 ∨ enc2 > enc.max_byte2 then
    pure none
  else
    let encoding_idx :=
      (enc1 - enc.min_byte1) * (enc.max_byte2 - enc.min_byte2 + 1) +
        enc2 - enc.min_byte2
    let cursor := indices_offset + 2 * encoding_idx
    let glyph_idx ← readU16BE buf cursor
    if glyph_idx ≠ 65535 then pure (some glyph_idx) else pure none

/-- `PcfFont::load_glyph_indices`: resolve every code point in
`0 ..= 0xFFFF`, keeping the resolved ones. -/
def load_glyph_indices (buf : List Nat) (enc : Encoding)
    (indices_offset : Nat) : Except PcfError (List (Nat × Nat)) :=
  (List.range 65536).foldlM
    (fun acc cp => do
      match ← resolve_glyph_index buf enc indices_offset cp with
      | some idx => pure (acc ++ [(cp, idx)])
      | none => pure acc)
    []

/-! ## Glyph assembly (lib.rs lines 468-565) -/

/-- Model of `u32::try_from(..).ok().and_then(std::char::from_u32)`:
characters are embedded as their Unicode scalar value, so the
conversion succeeds exactly on valid scalar values. -/
def charFromU32 (n : Nat) : Option Nat :=
  if n < 0xD800 ∨ (0xE000 ≤ n ∧ n < 0x110000) then some n else none

/-- Struct `Glyph` (lib.rs lines 137-145); the `encoding` character is
embedded as its Unicode scalar value. -/
structure Glyph where
  code_point : Nat
  encoding : Option Nat
  bitmap : List Nat
  bounding_box : BoundingBox
  shift_x : Int
  shift_y : Int
  tile_index : Int
deriving DecidableEq

/-- `PcfFont::load_all_metrics`: per resolved glyph index, the decode
cursor `first_metric_offset + metrics_size * index`. -/
def load_all_metrics (buf : List Nat) (md : Metadata)
    (indices : List (Nat × Nat)) :
    Except PcfError (List (Nat × CompressedMetrics)) :=
  indices.mapM (fun p => do
    let m ← read_compressed_metrics buf
      (md.first_metric_offset + md.metrics_size * p.2)
    pure (p.1, m))

/-- `PcfFont::load_bitmap_offsets`: per resolved glyph index, the
big-endian u32 at `bitmap_offset_offsets + 4 * index`. -/
def load_bitmap_offsets (buf : List Nat) (md : Metadata)
    (indices : List (Nat × Nat)) :
    Except PcfError (List (Nat × Nat)) :=
  indices.mapM (fun p => do
    let off ← readU32BE buf (md.bitmap_offset_offsets + 4 * p.2)
    pure (p.1, off))

/-- Body of the `PcfFont::create_glyphs` closure for one code point:
width and height from the metrics (`i16` arithmetic, exact here since
the debiased values lie in `-128 .. 127`), a zero bitmap of
`width * height` bytes (the `usize` narrowing panics when the product
is negative), and the derived bounding box and shifts. -/
def create_glyph (cp : Nat) (m : CompressedMetrics) :
    Except PcfError Glyph := do
  let width : Int := m.right_side_bearing - m.left_side_bearing
  let height : Int := m.character_ascent + m.character_descent
  let len ← usizeOfInt (width * height)
  pure { code_point := cp,
         encoding := charFromU32 cp,
         bitmap := List.replicate len 0,
         bounding_box :=
           ⟨⟨width, height⟩, ⟨m.left_side_bearing, -m.character_descent⟩⟩,
         shift_x := m.character_width,
         shift_y := 0,
         tile_index := 0 }

/-- `PcfFont::create_glyphs` over the metrics map. -/
def create_glyphs (all_metrics : List (Nat × CompressedMetrics)) :
    Except PcfError (List (Nat × Glyph)) :=
  all_metrics.mapM (fun p => do
    let g ← create_glyph p.1 p.2
    pure (p.1, g))

/-- Rust slice `&buf[start .. stop]`: panics when the range is invalid
or extends past the buffer. -/
def sliceRange (buf : List Nat) (start stop : Nat) :
    Except PcfError (List Nat) :=
  if start ≤ stop ∧ stop ≤ buf.length then
    .ok ((buf.drop start).take (stop - start))
  else
    .error .outOfBounds

/-- Inner double loop of `PcfFont::fill_glyph_bitmaps` (lib.rs lines
543-560), writing into an existing row-major bitmap `bm`: row stride is
`4 * ((w + 31) / 32)` bytes; row `y` is the slice starting at
`offset + stride * y`; within the row, column `x` consults slice byte
`x / 8` under the mask `128 >> (x % 8)`, setting output byte
`y * w + x` to 1 when the masked bit is on. -/
def fill_loop (buf : List Nat) (offset w h : Nat) (bm : List Nat) :
    Except PcfError (List Nat) :=
  let bytes_per_row := 4 * ((w + 31) / 32)
  (List.range h).foldlM
    (fun bm y => do
      let start := offset + bytes_per_row * y
      let row ← sliceRange buf start (start + bytes_per_row)
      (List.range w).foldlM
        (fun bm x => do
          let byte ← byteAt row (x / 8)
          let mask := 128 >>> (x % 8)
          pure (if byte &&& mask ≠ 0 then bm.set (y * w + x) 1 else bm))
        bm)
    bm

/-- Per-glyph body of `PcfFont::fill_glyph_bitmaps` (lib.rs lines
539-562): the absolute bitmap offset is `first_bitmap_offset` plus the
glyph offset; width and height are the bounding-box sizes cast
`as usize`. -/
def fill_glyph (buf : List Nat) (md : Metadata)
    (bitmap_offset : Nat) (g : Glyph) : Except PcfError Glyph := do
  let offset := md.first_bitmap_offset + bitmap_offset
  let width := usizeCast g.bounding_box.size.x
  let height := usizeCast g.bounding_box.size.y
  let bm ← fill_loop buf offset width height g.bitmap
  pure { g with bitmap := bm }

/-- `HashMap` indexing `bitmap_offsets[&code_point]`: panics when the
key is absent (unreachable in the pipeline, where the maps share their
key set). -/
def requireOffset (o : Option Nat) : Except PcfError Nat :=
  match o with
  | some off => .ok off
  | none => .error .outOfBounds

/-- `PcfFont::fill_glyph_bitmaps` over the glyph map; the
`bitmap_offsets[&code_point]` index is a `HashMap` lookup over the same
key set. -/
def fill_glyph_bitmaps (buf : List Nat) (md : Metadata)
    (glyphs : List (Nat × Glyph)) (bitmap_offsets : List (Nat × Nat)) :
    Except PcfError (List (Nat × Glyph)) :=
  glyphs.mapM (fun p => do
    let off ← requireOffset (bitmap_offsets.lookup p.1)
    let g ← fill_glyph buf md off p.2
    pure (p.1, g))

/-- `PcfFont::load_glyphs` (lib.rs lines 425-436): indices, the
compressed-metrics requirement (`panic!` otherwise), metrics, bitmap
offsets, glyph creation, bitmap fill. -/
def load_glyphs (buf : List Nat) (enc : Encoding) (md : Metadata) :
    Except PcfError (List (Nat × Glyph)) := do
  let indices ← load_glyph_indices buf enc md.indices_offset
  if md.is_metrics_compressed then
    let all_metrics ← load_all_metrics buf md indices
    let bitmap_offsets ← load_bitmap_offsets buf md indices
    let glyphs ← create_glyphs all_metrics
    fill_glyph_bitmaps buf md glyphs bitmap_offsets
  else
    .error .unimplementedMetrics

/-! ## The old fill loop of `pcf-parser/src/pcf.rs` -/

/-- Inner double loop of `PcfFont::load_glyphs` in the unused older
module `pcf-parser/src/pcf.rs` (lines 540-552): identical to
`fill_loop` except that the consulted byte sits at
`offset + bytes_per_row * y` for EVERY column `x` - the `x / 8`
advancement within the row is missing, while the mask still cycles
through `128 >> (x % 8)`. -/
def fill_loop_old (buf : List Nat) (offset w h : Nat) (bm : List Nat) :
    Except PcfError (List Nat) :=
  let bytes_per_row := 4 * ((w + 31) / 32)
  (List.range h).foldlM
    (fun bm y =>
      (List.range w).foldlM
        (fun bm x => do
          let idx := offset + bytes_per_row * y
          let byte ← byteAt buf idx
          let mask := 128 >>> (x % 8)
          pure (if byte &&& mask ≠ 0 then bm.set (y * w + x) 1 else bm))
        bm)
    bm

/-! ## The decoded font (`PcfFont::new`, lib.rs lines 154-171) -/

/-- The fields of the decoded `PcfFont` value. -/
structure PcfFontData where
  glyphs : List (Nat × Glyph)
  tables : Tables
  accelerators : Accelerators
  encoding : Encoding
  bitmap : Bitmap
  bounding_box : BoundingBox
  metadata : Metadata
deriving DecidableEq

/-- The decode pipeline downstream of the header: table count at byte
offset 4, directory records from byte offset 8, then the sub-table
decoders and glyph loading, in the order of `PcfFont::new`. -/
def pcf_decode_from_directory (buf : List Nat) :
    Except PcfError PcfFontData := do
  let count ← readI32LE buf 4
  let tables ← read_tables buf count.toNat
  let accelerators ← read_accelerators buf tables
  let encoding ← read_encoding buf tables
  let bitmap ← read_bitmap buf tables
  let bounding_box := get_bounding_box accelerators
  let metadata ← load_metadata tables bitmap
  let glyphs ← load_glyphs buf encoding metadata
  pure { glyphs, tables, accelerators, encoding, bitmap,
         bounding_box, metadata }

/-- `PcfFont::new`: the header word is read (a panic if the buffer is
shorter than 4 bytes) and its value discarded - the source carries the
comment `TODO maybe panic if magic string is not there?` - after which
decoding proceeds with the table directory. -/
def pcf_new (buf : List Nat) : Except PcfError PcfFontData := do
  let _magic ← readI32LE buf 0
  pcf_decode_from_directory buf

/-! ## The embedded-graphics font (`eg-pcf/src/lib.rs`)

Characters are embedded as their Unicode scalar value (`Nat`), and the
`embedded_graphics` `Rectangle` as top-left point plus size. -/

/-- `embedded_graphics::primitives::Rectangle`. -/
structure Rect where
  x : Int
  y : Int
  width : Nat
  height : Nat
deriving DecidableEq

/-- Struct `eg_pcf::PcfGlyph`. -/
structure PcfGlyph where
  character : Nat
  bounding_box : Rect
  device_width : Nat
  start_index : Nat
deriving DecidableEq

/-- Struct `eg_pcf::PcfFont`. -/
structure PcfFont where
  bounding_box : Rect
  replacement_character : Nat
  line_height : Nat
  glyphs : List PcfGlyph
  data : List Nat
deriving DecidableEq

/-- `PcfFont::get_glyph` (eg-pcf/src/lib.rs lines 24-29): linear search
for the queried character, falling back to indexing the glyph slice at
`replacement_character`; the fallback indexing panics (modelled `none`)
when that index is out of bounds. -/
def get_glyph (font : PcfFont) (c : Nat) : Option PcfGlyph :=
  match font.glyphs.find? (fun g => g.character == c) with
  | some g => some g
  | none => font.glyphs[font.replacement_character]?

/-! ## Toolkit for reasoning about the `Except` pipeline -/

theorem ok_bind {ε α β : Type} (a : α) (f : α → Except ε β) :
    (Except.ok a >>= f) = f a := rfl

theorem except_bind_ok {ε α β : Type} {x : Except ε α}
    {f : α → Except ε β} {b : β} :
    (x >>= f) = .ok b ↔ ∃ a, x = .ok a ∧ f a = .ok b := by
  cases x <;> simp [Bind.bind, Except.bind]

theorem except_bind_err {ε α β : Type} {x : Except ε α}
    {f : α → Except ε β} {e : ε} :
    (x >>= f) = .error e ↔
      x = .error e ∨ ∃ a, x = .ok a ∧ f a = .error e := by
  cases x <;> simp [Bind.bind, Except.bind]

theorem except_map_err {ε α β : Type} {x : Except ε α} {g : α → β}
    {e : ε} : x.map g = .error e ↔ x = .error e := by
  cases x <;> simp [Except.map]

theorem byteAt_error {buf : List Nat} {i : Nat} {e : PcfError}
    (h : byteAt buf i = .error e) : e = .outOfBounds := by
  unfold byteAt at h
  split at h
  · exact absurd h (by simp)
  · simpa using h.symm

theorem readU16BE_error {buf : List Nat} {i : Nat} {e : PcfError}
    (h : readU16BE buf i = .error e) : e = .outOfBounds := by
  unfold readU16BE at h
  rcases except_bind_err.mp h with h0 | ⟨a, ha, h0⟩
  · exact byteAt_error h0
  · rcases except_bind_err.mp h0 with h1 | ⟨b, hb, h1⟩
    · exact byteAt_error h1
    · simp [pure, Except.pure] at h1

theorem readU32BE_error {buf : List Nat} {i : Nat} {e : PcfError}
    (h : readU32BE buf i = .error e) : e = .outOfBounds := by
  unfold readU32BE at h
  rcases except_bind_err.mp h with h0 | ⟨a, ha, h0⟩
  · exact byteAt_error h0
  rcases except_bind_err.mp h0 with h1 | ⟨b, hb, h1⟩
  · exact byteAt_error h1
  rcases except_bind_err.mp h1 with h2 | ⟨c, hc, h2⟩
  · exact byteAt_error h2
  rcases except_bind_err.mp h2 with h3 | ⟨d, hd, h3⟩
  · exact byteAt_error h3
  · simp [pure, Except.pure] at h3

theorem readU32LE_error {buf : List Nat} {i : Nat} {e : PcfError}
    (h : readU32LE buf i = .error e) : e = .outOfBounds := by
  unfold readU32LE at h
  rcases except_bind_err.mp h with h0 | ⟨a, ha, h0⟩
  · exact byteAt_error h0
  rcases except_bind_err.mp h0 with h1 | ⟨b, hb, h1⟩
  · exact byteAt_error h1
  rcases except_bind_err.mp h1 with h2 | ⟨c, hc, h2⟩
  · exact byteAt_error h2
  rcases except_bind_err.mp h2 with h3 | ⟨d, hd, h3⟩
  · exact byteAt_error h3
  · simp [pure, Except.pure] at h3

theorem readI16BE_error {buf : List Nat} {i : Nat} {e : PcfError}
    (h : readI16BE buf i = .error e) : e = .outOfBounds :=
  readU16BE_error (except_map_err.mp h)

theorem readI32BE_error {buf : List Nat} {i : Nat} {e : PcfError}
    (h : readI32BE buf i = .error e) : e = .outOfBounds :=
  readU32BE_error (except_map_err.mp h)

theorem readI32LE_error {buf : List Nat} {i : Nat} {e : PcfError}
    (h : readI32LE buf i = .error e) : e = .outOfBounds :=
  readU32LE_error (except_map_err.mp h)

theorem usizeOfInt_error {n : Int} {e : PcfError}
    (h : usizeOfInt n = .error e) : e = .conversionFailed := by
  unfold usizeOfInt at h
  split at h <;> simp_all

-- Equality of decode results is decidable, enabling `decide` evaluations.
deriving instance DecidableEq for Except

/-! ## C1: per-pixel bitmap unpacking -/

/-- Source bytes of a one-row, nine-column glyph: within the row
(stride `4 * ceil(9 / 32) = 4` bytes) only bit 7 of byte 1 is set. -/
def rowBuf : List Nat := [0, 128, 0, 0]

/-- C1: over the source bytes `rowBuf` for a glyph of width 9 and
height 1, the claimed formula turns pixel `(y, x) = (0, 8)` on - bit
`7 - 8 % 8 = 7` of the source byte at `row_base + 8 / 8 = 1` is set -
and the live decoder loop of `PcfFont::fill_glyph_bitmaps`
(lib.rs) does set output byte `0 * 9 + 8`; the older
`PcfFont::load_glyphs` fill loop of pcf.rs instead consults the byte at
`row_base` for every column (the `x / 8` term is absent from its index)
and leaves that pixel off, so it contradicts the claim on this input. -/
theorem c1_fill_loop_old_divergence :
    Nat.testBit (rowBuf.getD (0 + 4 * ((9 + 31) / 32) * 0 + 8 / 8) 0)
        (7 - 8 % 8) = true ∧
    fill_loop rowBuf 0 9 1 (List.replicate 9 0) =
      .ok [0, 0, 0, 0, 0, 0, 0, 0, 1] ∧
    fill_loop_old rowBuf 0 9 1 (List.replicate 9 0) =
      .ok [0, 0, 0, 0, 0, 0, 0, 0, 0] := by
  decide

/-! ## C7: the encoding-table format assertion -/

/-- Failure modes of the encoding-table body decoder: a short buffer or
a negative field - never a format complaint, because the asserted
condition is `format & 0 == 0`. -/
theorem read_encoding_at_error {buf : List Nat} {off : Nat}
    {e : PcfError} (h : read_encoding_at buf off = .error e) :
    e = .outOfBounds ∨ e = .conversionFailed := by
  unfold read_encoding_at at h
  rcases except_bind_err.mp h with h0 | ⟨format, hf, h0⟩
  · exact .inl (readU32LE_error h0)
  rw [if_pos (by simp [PCF_DEFAULT_FORMAT])] at h0
  rcases except_bind_err.mp h0 with h1 | ⟨a1, _, h1⟩
  · exact .inl (readI16BE_error h1)
  rcases except_bind_err.mp h1 with h2 | ⟨a2, _, h2⟩
  · exact .inl (readI16BE_error h2)
  rcases except_bind_err.mp h2 with h3 | ⟨a3, _, h3⟩
  · exact .inl (readI16BE_error h3)
  rcases except_bind_err.mp h3 with h4 | ⟨a4, _, h4⟩
  · exact .inl (readI16BE_error h4)
  rcases except_bind_err.mp h4 with h5 | ⟨a5, _, h5⟩
  · exact .inl (readI16BE_error h5)
  rcases except_bind_err.mp h5 with h6 | ⟨b1, _, h6⟩
  · exact .inr (usizeOfInt_error h6)
  rcases except_bind_err.mp h6 with h7 | ⟨b2, _, h7⟩
  · exact .inr (usizeOfInt_error h7)
  rcases except_bind_err.mp h7 with h8 | ⟨b3, _, h8⟩
  · exact .inr (usizeOfInt_error h8)
  rcases except_bind_err.mp h8 with h9 | ⟨b4, _, h9⟩
  · exact .inr (usizeOfInt_error h9)
  rcases except_bind_err.mp h9 with h10 | ⟨b5, _, h10⟩
  · exact .inr (usizeOfInt_error h10)
  · simp [pure, Except.pure] at h10

/-- C7 (amended): the assertion of `PcfFont::read_encoding` tests
`format & PCF_DEFAULT_FORMAT == 0` with `PCF_DEFAULT_FORMAT = 0`, which
holds for every format word, so the decoder never fails with
`UnsupportedFormat`: every encoding-table format word is accepted. -/
theorem read_encoding_never_unsupported_format (buf : List Nat)
    (off : Nat) :
    read_encoding_at buf off ≠ .error .unsupportedFormat := by
  intro h
  rcases read_encoding_at_error h with h | h <;> exact PcfError.noConfusion h

/-- Encoding table bytes whose format word is 14 (the value carried by
the reference test font): `[14, 0, 0, 0]` little endian, then the five
big-endian i16 fields `0, 126, 0, 0, 1`. -/
def encBuf : List Nat := [14, 0, 0, 0, 0, 0, 0, 126, 0, 0, 0, 0, 0, 1]

/-- C7 counterexample: the format word of `encBuf` is 14, different
from the default-format constant 0, yet `PcfFont::read_encoding`
accepts the table and returns its five fields - it does not fail with
`UnsupportedFormat`. -/
theorem read_encoding_accepts_nonzero_format :
    readU32LE encBuf 0 = .ok 14 ∧ (14 : Nat) ≠ PCF_DEFAULT_FORMAT ∧
    read_encoding_at encBuf 0 = .ok ⟨0, 126, 0, 0, 1⟩ := by
  decide

/-! ## C2: glyph-index resolution -/

/-- C2: for every code point `c`, with `enc1 = (c >> 8) & 0xFF` and
`enc2 = c & 0xFF`: when either byte falls outside its configured
`[min, max]` range the code point resolves to no glyph (it is never
treated as index 0), and otherwise the resolved index is the big-endian
u16 read at `indices_offset + 2 * ((enc1 - min_byte1) * (max_byte2 -
min_byte2 + 1) + (enc2 - min_byte2))`, with 65535 meaning no glyph and
any other value being the glyph index. -/
theorem resolve_glyph_index_spec (buf : List Nat) (enc : Encoding)
    (off c : Nat) :
    ((c >>> 8) &&& 0xFF < enc.min_byte1 ∨
        (c >>> 8) &&& 0xFF > enc.max_byte1 ∨
        c &&& 0xFF < enc.min_byte2 ∨ c &&& 0xFF > enc.max_byte2 →
      resolve_glyph_index buf enc off c = .ok none) ∧
    (∀ v : Nat, enc.min_byte1 ≤ (c >>> 8) &&& 0xFF →
      (c >>> 8) &&& 0xFF ≤ enc.max_byte1 →
      enc.min_byte2 ≤ c &&& 0xFF → c &&& 0xFF ≤ enc.max_byte2 →
      readU16BE buf (off + 2 * ((((c >>> 8) &&& 0xFF) - enc.min_byte1) *
          (enc.max_byte2 - enc.min_byte2 + 1) +
          ((c &&& 0xFF) - enc.min_byte2))) = .ok v →
      resolve_glyph_index buf enc off c =
        .ok (if v = 65535 then none else some v)) := by
  unfold resolve_glyph_index
  dsimp only
  set e1 := (c >>> 8) &&& 0xFF with he1
  set e2 := c &&& 0xFF with he2
  constructor
  · intro h
    split
    · rfl
    · split
      · rfl
      · rename_i hn1 hn2
        rcases h with h | h | h | h
        · exact absurd (Or.inl h) hn1
        · exact absurd (Or.inr h) hn1
        · exact absurd (Or.inl h) hn2
        · exact absurd (Or.inr h) hn2
  · intro v h1 h2 h3 h4 hread
    rw [if_neg (by omega), if_neg (by omega)]
    have hcur :
        off + 2 * ((e1 - enc.min_byte1) * (enc.max_byte2 - enc.min_byte2 + 1) +
          e2 - enc.min_byte2) =
        off + 2 * ((e1 - enc.min_byte1) *
          (enc.max_byte2 - enc.min_byte2 + 1) + (e2 - enc.min_byte2)) := by
      omega
    rw [hcur, hread, ok_bind]
    by_cases hv : v = 65535 <;> simp [hv, pure, Except.pure]

/-- Encoding parameters with a single high-byte row and full low-byte
range, used for the C2 witness. -/
def encSmall : Encoding := ⟨0, 255, 0, 0, 0⟩

/-- C2 witness: code point 300 has high byte 1, outside `[0, 0]`, and
resolves to no glyph; code point 1 is in range and resolves to the u16
read at cursor 2, namely 35. -/
theorem resolve_glyph_index_spec_witness :
    resolve_glyph_index [9, 9, 0, 35] encSmall 0 300 = .ok none ∧
    resolve_glyph_index [9, 9, 0, 35] encSmall 0 1 = .ok (some 35) := by
  constructor
  · exact (resolve_glyph_index_spec [9, 9, 0, 35] encSmall 0 300).1
      (by decide)
  · have h := (resolve_glyph_index_spec [9, 9, 0, 35] encSmall 0 1).2 35
      (by decide) (by decide) (by decide) (by decide) (by decide)
    simpa using h


/-! ## C3: compressed-metrics decoding -/

/-- C3: when the metrics table format word has the compressed-metrics
bit set, `load_metadata` puts the first metric at the metrics table
offset plus 6 with 5 bytes per glyph, so the metrics for glyph index
`i` are decoded at cursor `first_metric_offset + 5 * i`; the decode
takes the 5 consecutive stored bytes there, each debiased by `- 0x80`
(stored `0x80` decodes to 0, stored `0x7F` to -1), yielding left side
bearing, right side bearing, character width, ascent, descent in that
order, with the attributes field 0. -/
theorem compressed_metrics_decode (buf : List Nat) (tables : Tables)
    (bitmap : Bitmap) (md : Metadata) (mT : Table)
    (i b0 b1 b2 b3 b4 : Nat)
    (hmT : lookupTable tables PCF_METRICS = some mT)
    (hcomp : mT.format &&& PCF_COMPRESSED_METRICS ≠ 0)
    (hmd : load_metadata tables bitmap = .ok md)
    (h0 : byteAt buf (mT.offset + 6 + 5 * i) = .ok b0)
    (h1 : byteAt buf (mT.offset + 6 + 5 * i + 1) = .ok b1)
    (h2 : byteAt buf (mT.offset + 6 + 5 * i + 2) = .ok b2)
    (h3 : byteAt buf (mT.offset + 6 + 5 * i + 3) = .ok b3)
    (h4 : byteAt buf (mT.offset + 6 + 5 * i + 4) = .ok b4) :
    md.first_metric_offset = mT.offset + 6 ∧ md.metrics_size = 5 ∧
    read_compressed_metrics buf
        (md.first_metric_offset + md.metrics_size * i) =
      .ok ⟨(b0 : Int) - 0x80, (b1 : Int) - 0x80, (b2 : Int) - 0x80,
           (b3 : Int) - 0x80, (b4 : Int) - 0x80, 0⟩ := by
  unfold load_metadata at hmd
  rcases except_bind_ok.mp hmd with ⟨encT, hencT, hmd⟩
  rcases except_bind_ok.mp hmd with ⟨bmT, hbmT, hmd⟩
  rcases except_bind_ok.mp hmd with ⟨mTv, hmTv, hmd⟩
  rw [hmT] at hmTv
  have hmTeq : mT = mTv := by
    simpa [requireTable] using hmTv
  subst hmTeq
  simp only [pure, Except.pure, Except.ok.injEq] at hmd
  have hfmo : md.first_metric_offset = mT.offset + 6 := by
    rw [← hmd]
    simp [hcomp]
  have hms : md.metrics_size = 5 := by
    rw [← hmd]
    simp [hcomp]
  refine ⟨hfmo, hms, ?_⟩
  rw [hfmo, hms]
  unfold read_compressed_metrics
  rw [h0, ok_bind, h1, ok_bind, h2, ok_bind, h3, ok_bind, h4, ok_bind]
  rfl

/-- Buffer for the C3 witness: five stored metric bytes at cursor 16. -/
def c3buf : List Nat := List.replicate 16 0 ++ [128, 135, 136, 137, 128]

/-- Table directory for the C3 witness: a metrics table with the
compressed-metrics format bit set at offset 10. -/
def c3tables : Tables := [(32, ⟨0, 0, 0⟩), (8, ⟨0, 0, 0⟩), (4, ⟨256, 0, 10⟩)]

/-- Metadata decoded from `c3tables`. -/
def c3md : Metadata := ⟨14, 8, 24, 256, true, 16, 5⟩

/-- C3 witness: for glyph index 0 of the concrete layout, the metrics
decode from the five bytes `128, 135, 136, 137, 128` at cursor
`first_metric_offset + 5 * 0 = 16`, each debiased by `- 0x80`. -/
theorem compressed_metrics_decode_witness :
    read_compressed_metrics c3buf
        (c3md.first_metric_offset + c3md.metrics_size * 0) =
      .ok ⟨(128 : Int) - 0x80, (135 : Int) - 0x80, (136 : Int) - 0x80,
           (137 : Int) - 0x80, (128 : Int) - 0x80, 0⟩ :=
  (compressed_metrics_decode c3buf c3tables ⟨0, 0⟩ c3md ⟨256, 0, 10⟩
    0 128 135 136 137 128 (by decide) (by decide) (by decide)
    (by decide) (by decide) (by decide) (by decide) (by decide)).2.2

/-! ## C4: accelerator ink bounds -/

/-- C4: in the accelerator decoder, when the format word lacks the
ink-bounds bit the decoded ink bounds alias the logical bounds; when
the bit is set, the ink bounds are two further 12-byte
`UncompressedMetrics` records read immediately after the logical
bounds, at offsets 48 and 60 past the table offset. -/
theorem read_accelerators_ink_bounds (buf : List Nat) (off : Nat)
    (format : Nat) (acc : Accelerators)
    (hf : readU32LE buf off = .ok format)
    (h : read_accelerators_at buf off = .ok acc) :
    (format &&& PCF_ACCEL_W_INKBOUNDS = 0 →
      acc.ink_minbounds = acc.minbounds ∧
      acc.ink_maxbounds = acc.maxbounds) ∧
    (format &&& PCF_ACCEL_W_INKBOUNDS ≠ 0 →
      read_uncompressed_metrics buf (off + 48) = .ok acc.ink_minbounds ∧
      read_uncompressed_metrics buf (off + 60) = .ok acc.ink_maxbounds) := by
  unfold read_accelerators_at at h
  rw [hf, ok_bind] at h
  by_cases hbm : format &&& PCF_BYTE_MASK ≠ 0
  · rw [if_pos hbm] at h
    rcases except_bind_ok.mp h with ⟨n0, _, h⟩
    rcases except_bind_ok.mp h with ⟨n1, _, h⟩
    rcases except_bind_ok.mp h with ⟨n2, _, h⟩
    rcases except_bind_ok.mp h with ⟨n3, _, h⟩
    rcases except_bind_ok.mp h with ⟨n4, _, h⟩
    rcases except_bind_ok.mp h with ⟨n5, _, h⟩
    rcases except_bind_ok.mp h with ⟨n6, _, h⟩
    rcases except_bind_ok.mp h with ⟨n7, _, h⟩
    rcases except_bind_ok.mp h with ⟨fa, _, h⟩
    rcases except_bind_ok.mp h with ⟨fd, _, h⟩
    rcases except_bind_ok.mp h with ⟨mo, _, h⟩
    rcases except_bind_ok.mp h with ⟨mn, hmn, h⟩
    rcases except_bind_ok.mp h with ⟨mx, hmx, h⟩
    constructor
    · intro hz
      rw [if_neg (by simp [hz])] at h
      simp only [pure, Except.pure, Except.ok.injEq] at h
      subst h
      exact ⟨rfl, rfl⟩
    · intro hnz
      rw [if_pos hnz] at h
      rcases except_bind_ok.mp h with ⟨imn, himn, h⟩
      rcases except_bind_ok.mp h with ⟨imx, himx, h⟩
      simp only [pure, Except.pure, Except.ok.injEq] at h
      subst h
      exact ⟨himn, himx⟩
  · rw [if_neg hbm] at h
    exact absurd h (by simp)

/-- Accelerator body without the ink-bounds bit: format word 4
(big-endian flag only), all further fields zero. -/
def noInkBuf : List Nat := 4 :: List.replicate 47 0

/-- Accelerator body with the ink-bounds bit: format word
`0x104 = 260`, and a nonzero byte inside the first ink-bounds record
(byte 49, making its left side bearing 7). -/
def inkBuf : List Nat :=
  [4, 1, 0, 0] ++ List.replicate 44 0 ++ [0, 7] ++ List.replicate 22 0

/-- Zero metrics record. -/
def umZero : UncompressedMetrics := ⟨0, 0, 0, 0, 0, 0⟩

/-- Ink-min record of `inkBuf`. -/
def umInkMin : UncompressedMetrics := ⟨7, 0, 0, 0, 0, 0⟩

/-- Accelerators decoded from `noInkBuf`. -/
def accNoInk : Accelerators :=
  ⟨0, 0, 0, 0, 0, 0, 0, 0, 0, 0, 0, umZero, umZero, umZero, umZero⟩

/-- Accelerators decoded from `inkBuf`. -/
def accInk : Accelerators :=
  ⟨0, 0, 0, 0, 0, 0, 0, 0, 0, 0, 0, umZero, umZero, umInkMin, umZero⟩

/-- C4 witness: both branches at concrete accelerator tables - without
the ink-bounds bit the ink bounds alias the logical bounds, with it
they are the records read at offsets 48 and 60. -/
theorem read_accelerators_ink_bounds_witness :
    (read_accelerators_at noInkBuf 0 = .ok accNoInk ∧
      accNoInk.ink_minbounds = accNoInk.minbounds ∧
      accNoInk.ink_maxbounds = accNoInk.maxbounds) ∧
    (read_accelerators_at inkBuf 0 = .ok accInk ∧
      read_uncompressed_metrics inkBuf (0 + 48) = .ok accInk.ink_minbounds ∧
      read_uncompressed_metrics inkBuf (0 + 60) = .ok accInk.ink_maxbounds) := by
  constructor
  · exact ⟨by decide,
      (read_accelerators_ink_bounds noInkBuf 0 4 accNoInk (by decide)
        (by decide)).1 (by decide)⟩
  · exact ⟨by decide,
      (read_accelerators_ink_bounds inkBuf 0 260 accInk (by decide)
        (by decide)).2 (by decide)⟩

/-! ## C5: bitmap-table decoding -/

/-- Success shape of the `usize` narrowing. -/
theorem usizeOfInt_ok {n : Int} {m : Nat} (h : usizeOfInt n = .ok m) :
    0 ≤ n ∧ m = n.toNat := by
  unfold usizeOfInt at h
  split at h
  · exact absurd h (by simp)
  · rename_i hn
    refine ⟨by omega, ?_⟩
    simpa using h.symm

/-- C5: the bitmap-table decoder reads the big-endian i32 glyph count
at the table offset plus 4, skips the `4 * glyph_count` bytes of the
per-glyph offset array, reads four consecutive big-endian i32 total
sizes, and selects the one indexed by the low two bits of the
little-endian format word (`format & 3 = format % 4`). -/
theorem read_bitmap_spec (buf : List Nat) (off : Nat) (format : Nat)
    (gc s : Int) (bm : Bitmap)
    (hf : readU32LE buf off = .ok format)
    (hgc : readI32BE buf (off + 4) = .ok gc)
    (hpos : 0 ≤ gc) (hsmall : gc < 2 ^ 29)
    (hsel : readI32BE buf (off + 8 + 4 * gc.toNat + 4 * (format % 4)) =
      .ok s)
    (h : read_bitmap_at buf off = .ok bm) :
    bm.glyph_count = gc.toNat ∧ 0 ≤ s ∧ bm.bitmap_sizes = s.toNat := by
  unfold read_bitmap_at at h
  rw [hf, ok_bind, if_pos (by simp [PCF_DEFAULT_FORMAT]), hgc, ok_bind] at h
  have hbase : off + 8 + usizeCast (wrap32 (4 * gc)) =
      off + 8 + 4 * gc.toNat := by
    unfold usizeCast wrap32
    omega
  rw [hbase] at h
  rcases except_bind_ok.mp h with ⟨e1, he1, h⟩
  rcases except_bind_ok.mp h with ⟨e2, he2, h⟩
  rcases except_bind_ok.mp h with ⟨e3, he3, h⟩
  rcases except_bind_ok.mp h with ⟨e4, he4, h⟩
  rcases except_bind_ok.mp h with ⟨gcN, hgcN, h⟩
  rcases except_bind_ok.mp h with ⟨szN, hszN, h⟩
  simp only [pure, Except.pure, Except.ok.injEq] at h
  subst h
  obtain ⟨-, hgcNeq⟩ := usizeOfInt_ok hgcN
  have hmod : format &&& 3 = format % 4 := by
    have hx := Nat.and_pow_two_sub_one_eq_mod format 2
    norm_num at hx
    exact hx
  rw [hmod] at hszN
  have hgetd : [e1, e2, e3, e4].getD (format % 4) 0 = s := by
    have h4 : format % 4 = 0 ∨ format % 4 = 1 ∨ format % 4 = 2 ∨
        format % 4 = 3 := by omega
    rcases h4 with h4 | h4 | h4 | h4 <;> rw [h4] at hsel ⊢
    · have e : off + 8 + 4 * gc.toNat + 4 * 0 =
          off + 8 + 4 * gc.toNat := by omega
      rw [e, he1] at hsel
      simpa using Except.ok.inj hsel
    · have e : off + 8 + 4 * gc.toNat + 4 * 1 =
          off + 8 + 4 * gc.toNat + 4 := by omega
      rw [e, he2] at hsel
      simpa using Except.ok.inj hsel
    · have e : off + 8 + 4 * gc.toNat + 4 * 2 =
          off + 8 + 4 * gc.toNat + 8 := by omega
      rw [e, he3] at hsel
      simpa using Except.ok.inj hsel
    · have e : off + 8 + 4 * gc.toNat + 4 * 3 =
          off + 8 + 4 * gc.toNat + 12 := by omega
      rw [e, he4] at hsel
      simpa using Except.ok.inj hsel
  rw [hgetd] at hszN
  obtain ⟨hs0, hszNeq⟩ := usizeOfInt_ok hszN
  exact ⟨hgcNeq, hs0, hszNeq⟩

/-- Bitmap table for the C5 witness: format word 2, one glyph, a
4-byte offset array, then the four candidate sizes 10, 20, 30, 40. -/
def bmBuf : List Nat :=
  [2, 0, 0, 0, 0, 0, 0, 1, 9, 9, 9, 9,
   0, 0, 0, 10, 0, 0, 0, 20, 0, 0, 0, 30, 0, 0, 0, 40]

/-- C5 witness: with format word 2 the third size candidate (30) is
selected, and the glyph count is 1. -/
theorem read_bitmap_spec_witness :
    read_bitmap_at bmBuf 0 = .ok ⟨1, 30⟩ ∧
    (⟨1, 30⟩ : Bitmap).glyph_count = (1 : Int).toNat ∧ (0 : Int) ≤ 30 ∧
    (⟨1, 30⟩ : Bitmap).bitmap_sizes = (30 : Int).toNat :=
  ⟨by decide,
    read_bitmap_spec bmBuf 0 2 1 30 ⟨1, 30⟩ (by decide) (by decide)
      (by decide) (by decide) (by decide) (by decide)⟩

/-! ## C6: header validation -/

/-- C6 (amended): `PcfFont::new` reads the 4-byte magic word but never
compares it with 1885562369 - whenever the first four bytes are
readable, decoding coincides with the pipeline that starts directly at
the table directory, for every magic value; in particular no input is
rejected with `InvalidHeader`. -/
theorem pcf_new_ignores_magic (buf : List Nat) (v : Int)
    (h : readI32LE buf 0 = .ok v) :
    pcf_new buf = pcf_decode_from_directory buf := by
  unfold pcf_new
  rw [h, ok_bind]

/-- Buffer whose magic word is 0 (not 1885562369), with table count 1
and a single properties-table record. -/
def badMagicBuf : List Nat :=
  [0, 0, 0, 0, 1, 0, 0, 0,
   1, 0, 0, 0, 0, 0, 0, 0, 0, 0, 0, 0, 0, 0, 0, 0]

/-- C6 counterexample: the magic word of `badMagicBuf` is 0, different
from 1885562369, yet decoding does not fail with `InvalidHeader`: the
table directory is parsed (one properties record), and the decode then
fails with `MissingTable` for lack of an accelerators table. -/
theorem pcf_new_accepts_bad_magic :
    readI32LE badMagicBuf 0 = .ok 0 ∧ (0 : Int) ≠ 1885562369 ∧
    read_tables badMagicBuf 1 = .ok [(PCF_PROPERTIES, ⟨0, 0, 0⟩)] ∧
    pcf_new badMagicBuf = .error .missingTable := by
  decide

/-- C6 witness: decoding `badMagicBuf` equals the directory-first
pipeline on it. -/
theorem pcf_new_ignores_magic_witness :
    pcf_new badMagicBuf = pcf_decode_from_directory badMagicBuf :=
  pcf_new_ignores_magic badMagicBuf 0 (by decide)

/-! ## C8, C9, C10: glyph lookup in the embedded-graphics font -/

/-- Linear search finds a member glyph exactly when the glyph
characters are pairwise distinct. -/
theorem find_character_mem {l : List PcfGlyph} {g : PcfGlyph}
    (hmem : g ∈ l)
    (hdist : l.Pairwise (fun a b => a.character ≠ b.character)) :
    l.find? (fun a => a.character == g.character) = some g := by
  induction l with
  | nil => cases hmem
  | cons hd tl ih =>
    rcases List.mem_cons.mp hmem with rfl | hmem2
    · rw [List.find?_cons_of_pos _ (by simp)]
    · have hne : hd.character ≠ g.character :=
        (List.pairwise_cons.mp hdist).1 g hmem2
      rw [List.find?_cons_of_neg _ (by simp [hne])]
      exact ih hmem2 (List.pairwise_cons.mp hdist).2

/-- C8: for every glyph of a font whose glyph characters are pairwise
distinct - as holds for decoded fonts, whose characters are their
distinct code points - looking its character up through `get_glyph`
returns that exact glyph, never a substituted or replacement glyph. -/
theorem get_glyph_roundtrip (font : PcfFont) (g : PcfGlyph)
    (hmem : g ∈ font.glyphs)
    (hdist : font.glyphs.Pairwise (fun a b => a.character ≠ b.character)) :
    get_glyph font g.character = some g := by
  unfold get_glyph
  rw [find_character_mem hmem hdist]

/-- Zero rectangle. -/
def rectZero : Rect := ⟨0, 0, 0, 0⟩

/-- Sample glyphs and fonts for the lookup witnesses. -/
def glyphA : PcfGlyph := ⟨65, rectZero, 8, 0⟩

def glyphB : PcfGlyph := ⟨66, rectZero, 8, 63⟩

def fontAB : PcfFont := ⟨rectZero, 0, 12, [glyphA, glyphB], []⟩

def emptyFont : PcfFont := ⟨rectZero, 0, 12, [], []⟩

/-- C8 witness: in the two-glyph font, looking up the character of the
second glyph returns exactly that glyph. -/
theorem get_glyph_roundtrip_witness :
    get_glyph fontAB glyphB.character = some glyphB :=
  get_glyph_roundtrip fontAB glyphB (by decide) (by decide)

/-- C9: querying a character absent from the font returns the
designated replacement glyph (the glyph at index
`replacement_character`) and never fails, provided that index is in
range. -/
theorem get_glyph_fallback (font : PcfFont) (c : Nat)
    (habsent : ∀ g ∈ font.glyphs, g.character ≠ c)
    (hrep : font.replacement_character < font.glyphs.length) :
    get_glyph font c =
      some (font.glyphs.get ⟨font.replacement_character, hrep⟩) := by
  unfold get_glyph
  have hfind : font.glyphs.find? (fun g => g.character == c) = none := by
    rw [List.find?_eq_none]
    intro g hg
    simp [habsent g hg]
  rw [hfind]
  rw [List.getElem?_eq_getElem hrep]
  rfl

/-- C9 witness: character 99 is absent from the two-glyph font, and the
lookup returns the replacement glyph at index 0. -/
theorem get_glyph_fallback_witness :
    get_glyph fontAB 99 = some (fontAB.glyphs.get ⟨0, by decide⟩) :=
  get_glyph_fallback fontAB 99 (by decide) (by decide)

/-- C10: `get_glyph` is total exactly under the precondition
`replacement_character < glyphs.length` - with it, every query returns
an element of the glyph slice; without it, every query for a character
not present in the font reaches the out-of-bounds fallback indexing
(modelled `none`, the Rust index panic). -/
theorem get_glyph_total_in_range (font : PcfFont) (c : Nat) :
    (font.replacement_character < font.glyphs.length →
      ∃ g, get_glyph font c = some g ∧ g ∈ font.glyphs) ∧
    (font.glyphs.length ≤ font.replacement_character →
      (∀ g ∈ font.glyphs, g.character ≠ c) →
      get_glyph font c = none) := by
  constructor
  · intro hrep
    cases hfind : font.glyphs.find? (fun g => g.character == c) with
    | some g =>
      have hgl : get_glyph font c = some g := by
        unfold get_glyph
        rw [hfind]
      exact ⟨g, hgl, List.mem_of_find?_eq_some hfind⟩
    | none =>
      refine ⟨font.glyphs.get ⟨font.replacement_character, hrep⟩, ?_, ?_⟩
      · unfold get_glyph
        rw [hfind]
        rw [List.getElem?_eq_getElem hrep]
        rfl
      · exact List.get_mem _ _ hrep
  · intro hrep habsent
    unfold get_glyph
    have hfind : font.glyphs.find? (fun g => g.character == c) = none := by
      rw [List.find?_eq_none]
      intro g hg
      simp [habsent g hg]
    rw [hfind]
    simpa using List.getElem?_eq_none hrep

/-- C10 witness: on the two-glyph font (replacement index 0 in range)
any query returns a member glyph; on the empty font (index 0 out of
range) a query for an absent character hits the out-of-bounds
fallback. -/
theorem get_glyph_total_in_range_witness :
    (∃ g, get_glyph fontAB 7 = some g ∧ g ∈ fontAB.glyphs) ∧
    get_glyph emptyFont 65 = none :=
  ⟨(get_glyph_total_in_range fontAB 7).1 (by decide),
   (get_glyph_total_in_range emptyFont 65).2 (by decide) (by decide)⟩

/-! ## General pixel formula for the live fill loop

The following supports C1: the fill loop of `PcfFont::fill_glyph_bitmaps`
(the live decoder) satisfies the claimed per-pixel formula on every
in-bounds input, so the spec describes that code exactly and the older
pcf.rs loop is the outlier. -/

theorem getD_set_self (l : List Nat) (i v : Nat) (h : i < l.length) :
    (l.set i v).getD i 0 = v := by
  induction l generalizing i with
  | nil => simp at h
  | cons a t ih =>
    cases i with
    | zero => rfl
    | succ i =>
      simp only [List.set, List.getD_cons_succ]
      exact ih i (by simpa using h)

theorem getD_set_ne (l : List Nat) (i j v : Nat) (h : i ≠ j) :
    (l.set i v).getD j 0 = l.getD j 0 := by
  induction l generalizing i j with
  | nil => simp [List.set]
  | cons a t ih =>
    cases i with
    | zero =>
      cases j with
      | zero => exact absurd rfl h
      | succ j => rfl
    | succ i =>
      cases j with
      | zero => rfl
      | succ j =>
        simp only [List.set, List.getD_cons_succ]
        exact ih i j (by omega)

theorem byteAt_ok_of_lt {l : List Nat} {i : Nat} (h : i < l.length) :
    byteAt l i = .ok (l.getD i 0) := by
  unfold byteAt
  rw [List.getElem?_eq_getElem h]
  rw [List.getD_eq_getElem?_getD, List.getElem?_eq_getElem h]
  rfl

theorem getD_replicate (n j : Nat) :
    (List.replicate n (0 : Nat)).getD j 0 = 0 := by
  rw [List.getD_eq_getElem?_getD, List.getElem?_replicate]
  split <;> rfl

theorem slice_getD (buf : List Nat) (s n i : Nat) (hi : i < n) :
    ((buf.drop s).take n).getD i 0 = buf.getD (s + i) 0 := by
  rw [List.getD_eq_getElem?_getD, List.getD_eq_getElem?_getD]
  rw [List.getElem?_take, List.getElem?_drop]
  simp [hi]

/-- Reduction of `pure` in the `Except` monad. -/
theorem except_pure {ε α : Type} (a : α) :
    (pure a : Except ε α) = Except.ok a := rfl

/-- Effect of one row of the live fill loop on the bitmap: position
`y * w + x` becomes 1 exactly when the masked bit of row byte `x / 8`
is on, and no position outside the row segment changes. -/
theorem inner_fold_spec (row : List Nat) (y w : Nat) :
    ∀ (n : Nat) (bm : List Nat), (∀ x, x < n → x / 8 < row.length) →
    ∃ bm2,
      (List.range n).foldlM
        (fun bm x => do
          let byte ← byteAt row (x / 8)
          pure (if byte &&& (128 >>> (x % 8)) ≠ 0
            then bm.set (y * w + x) 1 else bm)) bm = .ok bm2 ∧
      bm2.length = bm.length ∧
      (∀ j, (∀ x, x < n → j ≠ y * w + x) → bm2.getD j 0 = bm.getD j 0) ∧
      (∀ x, x < n → y * w + x < bm.length →
        bm2.getD (y * w + x) 0 =
          if (row.getD (x / 8) 0) &&& (128 >>> (x % 8)) ≠ 0 then 1
          else bm.getD (y * w + x) 0) := by
  intro n
  induction n with
  | zero =>
    intro bm _
    exact ⟨bm, rfl, rfl, fun j _ => rfl, fun x hx => absurd hx (by omega)⟩
  | succ n ih =>
    intro bm hrow
    obtain ⟨bm2, hfold, hlen, huntouched, hset⟩ :=
      ih bm (fun x hx => hrow x (by omega))
    by_cases hbit : (row.getD (n / 8) 0) &&& (128 >>> (n % 8)) ≠ 0
    · refine ⟨bm2.set (y * w + n) 1, ?_, ?_, ?_, ?_⟩
      · rw [List.range_succ, List.foldlM_append, hfold, ok_bind]
        simp only [List.foldlM_cons, List.foldlM_nil]
        rw [byteAt_ok_of_lt (hrow n (by omega)), ok_bind, except_pure,
          ok_bind, if_pos hbit, except_pure]
      · rw [List.length_set]
        exact hlen
      · intro j hj
        rw [getD_set_ne _ _ _ _ (Ne.symm (hj n (by omega)))]
        exact huntouched j (fun x hx => hj x (by omega))
      · intro x hx hxlen
        by_cases hxn : x = n
        · subst hxn
          rw [getD_set_self _ _ _ (by omega), if_pos hbit]
        · rw [getD_set_ne _ _ _ _ (by omega)]
          exact hset x (by omega) hxlen
    · refine ⟨bm2, ?_, hlen, ?_, ?_⟩
      · rw [List.range_succ, List.foldlM_append, hfold, ok_bind]
        simp only [List.foldlM_cons, List.foldlM_nil]
        rw [byteAt_ok_of_lt (hrow n (by omega)), ok_bind, except_pure,
          ok_bind, if_neg hbit, except_pure]
      · intro j hj
        exact huntouched j (fun x hx => hj x (by omega))
      · intro x hx hxlen
        by_cases hxn : x = n
        · subst hxn
          rw [if_neg hbit]
          exact huntouched _ (fun z hz => by omega)
        · exact hset x (by omega) hxlen

/-- Distinct rows occupy disjoint row-major index ranges. -/
theorem grid_index_ne {w y1 x1 y2 x2 : Nat} (h1 : x1 < w) (h2 : x2 < w)
    (hne : y1 ≠ y2) : y1 * w + x1 ≠ y2 * w + x2 := by
  intro heq
  apply hne
  have hw : 0 < w := by omega
  have e1 : (y1 * w + x1) / w = y1 := by
    rw [Nat.mul_comm y1 w, Nat.add_comm, Nat.add_mul_div_left x1 y1 hw,
      Nat.div_eq_of_lt h1]
    omega
  have e2 : (y2 * w + x2) / w = y2 := by
    rw [Nat.mul_comm y2 w, Nat.add_comm, Nat.add_mul_div_left x2 y2 hw,
      Nat.div_eq_of_lt h2]
    omega
  rw [← e1, ← e2, heq]

/-- Effect of the whole live fill loop: position `y * w + x` reflects
the masked bit of the source byte at `offset + bpr * y + x / 8`, the
byte advancing with `x / 8` within the row. -/
theorem outer_fold_spec (buf : List Nat) (offset w bpr : Nat)
    (hbpr : ∀ x, x < w → x / 8 < bpr) :
    ∀ (m : Nat) (bm : List Nat),
    (∀ y, y < m → offset + bpr * y + bpr ≤ buf.length) →
    ∃ bm2,
      (List.range m).foldlM
        (fun bm y => do
          let row ← sliceRange buf (offset + bpr * y) (offset + bpr * y + bpr)
          (List.range w).foldlM
            (fun (bm : List Nat) x => do
              let byte ← byteAt row (x / 8)
              pure (if byte &&& (128 >>> (x % 8)) ≠ 0
                then bm.set (y * w + x) 1 else bm)) bm) bm = .ok bm2 ∧
      bm2.length = bm.length ∧
      (∀ j, (∀ y x, y < m → x < w → j ≠ y * w + x) →
        bm2.getD j 0 = bm.getD j 0) ∧
      (∀ y x, y < m → x < w → y * w + x < bm.length →
        bm2.getD (y * w + x) 0 =
          if (buf.getD (offset + bpr * y + x / 8) 0) &&&
              (128 >>> (x % 8)) ≠ 0
          then 1 else bm.getD (y * w + x) 0) := by
  intro m
  induction m with
  | zero =>
    intro bm _
    exact ⟨bm, rfl, rfl, fun j _ => rfl, fun y x hy => absurd hy (by omega)⟩
  | succ m ih =>
    intro bm hb
    obtain ⟨bm2, hfold, hlen, huntouched, hval⟩ :=
      ih bm (fun y hy => hb y (by omega))
    have hslice : sliceRange buf (offset + bpr * m)
        (offset + bpr * m + bpr) =
        .ok ((buf.drop (offset + bpr * m)).take bpr) := by
      unfold sliceRange
      rw [if_pos ⟨by omega, hb m (by omega)⟩]
      have harith : offset + bpr * m + bpr - (offset + bpr * m) = bpr := by
        omega
      rw [harith]
    have hrowlen : ((buf.drop (offset + bpr * m)).take bpr).length = bpr := by
      have := hb m (by omega)
      simp only [List.length_take, List.length_drop]
      omega
    obtain ⟨bm3, hifold, hilen, hiunt, hiset⟩ :=
      inner_fold_spec ((buf.drop (offset + bpr * m)).take bpr) m w w bm2
        (fun x hx => by rw [hrowlen]; exact hbpr x hx)
    refine ⟨bm3, ?_, hilen.trans hlen, ?_, ?_⟩
    · rw [List.range_succ, List.foldlM_append, hfold, ok_bind]
      simp only [List.foldlM_cons, List.foldlM_nil]
      rw [hslice, ok_bind, hifold, ok_bind, except_pure]
    · intro j hj
      rw [hiunt j (fun x hx => hj m x (by omega) hx)]
      exact huntouched j (fun y x hy hx => hj y x (by omega) hx)
    · intro y x hy hx hxlen
      by_cases hym : y = m
      · subst hym
        rw [hiset x hx (by omega)]
        rw [slice_getD buf (offset + bpr * y) bpr (x / 8) (hbpr x hx)]
        rw [huntouched (y * w + x)
          (fun z t hz ht => grid_index_ne hx ht (by omega))]
      · rw [hiunt (y * w + x)
          (fun t ht => grid_index_ne hx ht (by omega))]
        exact hval y x (by omega) hx hxlen

/-- Pixel formula of the live decoder (supports C1): on any in-bounds
input, `fill_loop` succeeds and output byte `y * w + x` is 1 exactly
when bit `7 - x % 8` of the source byte at
`offset + stride * y + x / 8` is set, with stride `4 * ((w + 31) / 32)`
(that is, `4 * ceil(w / 32)`). -/
theorem fill_loop_pixel (buf : List Nat) (offset w h : Nat)
    (hb : ∀ y, y < h →
      offset + 4 * ((w + 31) / 32) * y + 4 * ((w + 31) / 32) ≤
        buf.length) :
    ∃ out, fill_loop buf offset w h (List.replicate (w * h) 0) =
        .ok out ∧
      out.length = w * h ∧
      ∀ y x, y < h → x < w →
        (out.getD (y * w + x) 0 = 1 ↔
          Nat.testBit
            (buf.getD (offset + 4 * ((w + 31) / 32) * y + x / 8) 0)
            (7 - x % 8)) := by
  have hbpr : ∀ x, x < w → x / 8 < 4 * ((w + 31) / 32) := by
    intro x hx
    omega
  obtain ⟨out, hfold, hlen, -, hval⟩ :=
    outer_fold_spec buf offset w (4 * ((w + 31) / 32)) hbpr h
      (List.replicate (w * h) 0) hb
  refine ⟨out, ?_, ?_, ?_⟩
  · unfold fill_loop
    dsimp only
    exact hfold
  · rw [hlen, List.length_replicate]
  · intro y x hy hx
    have hwpos : y * w + x < w * h := by
      have h1 : (y + 1) * w = y * w + w := by ring
      have h2 : (y + 1) * w ≤ h * w := Nat.mul_le_mul_right w hy
      have h3 : h * w = w * h := Nat.mul_comm h w
      omega
    have hpos : y * w + x < (List.replicate (w * h) (0 : Nat)).length := by
      rw [List.length_replicate]
      exact hwpos
    rw [hval y x hy hx hpos, getD_replicate]
    have hmask : (128 : Nat) >>> (x % 8) = 2 ^ (7 - x % 8) := by
      rw [show (128 : Nat) = 2 ^ 7 by norm_num, Nat.shiftRight_eq_div_pow,
        Nat.pow_div (by omega) (by norm_num)]
    rw [hmask, Nat.and_two_pow]
    by_cases ht : (buf.getD (offset + 4 * ((w + 31) / 32) * y + x / 8)
        0).testBit (7 - x % 8)
    · simp [ht]
    · simp [ht]

/-- Effect of one row of the old pcf.rs fill loop: every column of the
row consults the SAME buffer byte `idx` (no `x / 8` advancement). -/
theorem inner_fold_old_spec (buf : List Nat) (idx y w : Nat) :
    ∀ (n : Nat) (bm : List Nat), (0 < n → idx < buf.length) →
    ∃ bm2,
      (List.range n).foldlM
        (fun (bm : List Nat) x => do
          let byte ← byteAt buf idx
          pure (if byte &&& (128 >>> (x % 8)) ≠ 0
            then bm.set (y * w + x) 1 else bm)) bm = .ok bm2 ∧
      bm2.length = bm.length ∧
      (∀ j, (∀ x, x < n → j ≠ y * w + x) → bm2.getD j 0 = bm.getD j 0) ∧
      (∀ x, x < n → y * w + x < bm.length →
        bm2.getD (y * w + x) 0 =
          if (buf.getD idx 0) &&& (128 >>> (x % 8)) ≠ 0 then 1
          else bm.getD (y * w + x) 0) := by
  intro n
  induction n with
  | zero =>
    intro bm _
    exact ⟨bm, rfl, rfl, fun j _ => rfl, fun x hx => absurd hx (by omega)⟩
  | succ n ih =>
    intro bm hidx
    obtain ⟨bm2, hfold, hlen, huntouched, hset⟩ :=
      ih bm (fun hn => hidx (by omega))
    by_cases hbit : (buf.getD idx 0) &&& (128 >>> (n % 8)) ≠ 0
    · refine ⟨bm2.set (y * w + n) 1, ?_, ?_, ?_, ?_⟩
      · rw [List.range_succ, List.foldlM_append, hfold, ok_bind]
        simp only [List.foldlM_cons, List.foldlM_nil]
        rw [byteAt_ok_of_lt (hidx (by omega)), ok_bind, except_pure,
          ok_bind, if_pos hbit, except_pure]
      · rw [List.length_set]
        exact hlen
      · intro j hj
        rw [getD_set_ne _ _ _ _ (Ne.symm (hj n (by omega)))]
        exact huntouched j (fun x hx => hj x (by omega))
      · intro x hx hxlen
        by_cases hxn : x = n
        · subst hxn
          rw [getD_set_self _ _ _ (by omega), if_pos hbit]
        · rw [getD_set_ne _ _ _ _ (by omega)]
          exact hset x (by omega) hxlen
    · refine ⟨bm2, ?_, hlen, ?_, ?_⟩
      · rw [List.range_succ, List.foldlM_append, hfold, ok_bind]
        simp only [List.foldlM_cons, List.foldlM_nil]
        rw [byteAt_ok_of_lt (hidx (by omega)), ok_bind, except_pure,
          ok_bind, if_neg hbit, except_pure]
      · intro j hj
        exact huntouched j (fun x hx => hj x (by omega))
      · intro x hx hxlen
        by_cases hxn : x = n
        · subst hxn
          rw [if_neg hbit]
          exact huntouched _ (fun z hz => by omega)
        · exact hset x (by omega) hxlen

/-- Effect of the whole old fill loop: position `y * w + x` reflects the
masked bit of the byte at `offset + bpr * y` - the row base - for every
column `x` of the row. -/
theorem outer_fold_old_spec (buf : List Nat) (offset w bpr : Nat) :
    ∀ (m : Nat) (bm : List Nat),
    (∀ y, y < m → (0 < w → offset + bpr * y < buf.length)) →
    ∃ bm2,
      (List.range m).foldlM
        (fun (bm : List Nat) y =>
          (List.range w).foldlM
            (fun (bm : List Nat) x => do
              let byte ← byteAt buf (offset + bpr * y)
              pure (if byte &&& (128 >>> (x % 8)) ≠ 0
                then bm.set (y * w + x) 1 else bm)) bm) bm = .ok bm2 ∧
      bm2.length = bm.length ∧
      (∀ j, (∀ y x, y < m → x < w → j ≠ y * w + x) →
        bm2.getD j 0 = bm.getD j 0) ∧
      (∀ y x, y < m → x < w → y * w + x < bm.length →
        bm2.getD (y * w + x) 0 =
          if (buf.getD (offset + bpr * y) 0) &&& (128 >>> (x % 8)) ≠ 0
          then 1 else bm.getD (y * w + x) 0) := by
  intro m
  induction m with
  | zero =>
    intro bm _
    exact ⟨bm, rfl, rfl, fun j _ => rfl, fun y x hy => absurd hy (by omega)⟩
  | succ m ih =>
    intro bm hb
    obtain ⟨bm2, hfold, hlen, huntouched, hval⟩ :=
      ih bm (fun y hy => hb y (by omega))
    obtain ⟨bm3, hifold, hilen, hiunt, hiset⟩ :=
      inner_fold_old_spec buf (offset + bpr * m) m w w bm2
        (fun hw => hb m (by omega) hw)
    refine ⟨bm3, ?_, hilen.trans hlen, ?_, ?_⟩
    · rw [List.range_succ, List.foldlM_append, hfold, ok_bind]
      simp only [List.foldlM_cons, List.foldlM_nil]
      rw [hifold, ok_bind, except_pure]
    · intro j hj
      rw [hiunt j (fun x hx => hj m x (by omega) hx)]
      exact huntouched j (fun y x hy hx => hj y x (by omega) hx)
    · intro y x hy hx hxlen
      by_cases hym : y = m
      · subst hym
        rw [hiset x hx (by omega)]
        rw [huntouched (y * w + x)
          (fun z t hz ht => grid_index_ne hx ht (by omega))]
      · rw [hiunt (y * w + x)
          (fun t ht => grid_index_ne hx ht (by omega))]
        exact hval y x (by omega) hx hxlen

/-- Pixel behaviour of the old pcf.rs loop (supports C1): on any
in-bounds input, output byte `y * w + x` is 1 exactly when bit
`7 - x % 8` of the byte at the ROW BASE `offset + stride * y` is set -
the consulted source byte never advances with `x / 8`, contradicting
the claimed formula whenever the row is wider than 8 pixels and its
bytes differ. -/
theorem fill_loop_old_pixel (buf : List Nat) (offset w h : Nat)
    (hb : ∀ y, y < h →
      (0 < w → offset + 4 * ((w + 31) / 32) * y < buf.length)) :
    ∃ out, fill_loop_old buf offset w h (List.replicate (w * h) 0) =
        .ok out ∧
      out.length = w * h ∧
      ∀ y x, y < h → x < w →
        (out.getD (y * w + x) 0 = 1 ↔
          Nat.testBit (buf.getD (offset + 4 * ((w + 31) / 32) * y) 0)
            (7 - x % 8)) := by
  obtain ⟨out, hfold, hlen, -, hval⟩ :=
    outer_fold_old_spec buf offset w (4 * ((w + 31) / 32)) h
      (List.replicate (w * h) 0) hb
  refine ⟨out, ?_, ?_, ?_⟩
  · unfold fill_loop_old
    dsimp only
    exact hfold
  · rw [hlen, List.length_replicate]
  · intro y x hy hx
    have hwpos : y * w + x < w * h := by
      have h1 : (y + 1) * w = y * w + w := by ring
      have h2 : (y + 1) * w ≤ h * w := Nat.mul_le_mul_right w hy
      have h3 : h * w = w * h := Nat.mul_comm h w
      omega
    have hpos : y * w + x < (List.replicate (w * h) (0 : Nat)).length := by
      rw [List.length_replicate]
      exact hwpos
    rw [hval y x hy hx hpos, getD_replicate]
    have hmask : (128 : Nat) >>> (x % 8) = 2 ^ (7 - x % 8) := by
      rw [show (128 : Nat) = 2 ^ 7 by norm_num, Nat.shiftRight_eq_div_pow,
        Nat.pow_div (by omega) (by norm_num)]
    rw [hmask, Nat.and_two_pow]
    by_cases ht : (buf.getD (offset + 4 * ((w + 31) / 32) * y)
        0).testBit (7 - x % 8)
    · simp [ht]
    · simp [ht]

end BitmapFonts
